import Mathlib

/-!
Verification of the BreezyBoard kanban application's task ordering and
column-move protocol.

The definitions below are a shallow embedding of:
  * the client drag-and-drop handler `handleDragEnd` and its helpers in the
    `KanbanBoard` component (optimistic cross-column move, same-column
    reorder via dnd-kit's `arrayMove`, failure rollback / refetch),
  * the client auto-move-to-done heuristic in `handleTaskSave`,
  * the server-side task service (`moveTask`, `updateOrders`,
    `getTasksByBoard`) backed by Mongoose, modelled as pure functions over a
    list of task documents.

JavaScript numbers used as orders/timestamps are modelled as `Int`;
MongoDB object ids as `String`.  `Array.prototype.sort` with comparator
`(a, b) => a.order - b.order` is a stable sort and is modelled with
`List.mergeSort`.
-/

namespace BreezyBoard

/-- A checklist entry of a task (`{text, completed}` in the Mongoose schema). -/
structure ChecklistItem where
  text : String
  completed : Bool
deriving DecidableEq

/-- A task document, as stored by the server and as held in the client's
`tasks` state.  `color` and `owner` are object-id references (populate is
modelled separately), `status` is the column id, `order` the integer
position inside the column, `createdAt` the Mongoose timestamp. -/
structure Task where
  id : String
  title : String
  status : String
  priority : String
  color : String
  owner : Option String
  boardId : String
  checklist : List ChecklistItem
  order : Int
  createdAt : Int
deriving DecidableEq

/-- A column of the board, as prepared by `fetchBoardData` from the board
template (`{id, title, color, order}`). -/
structure ColumnData where
  id : String
  title : String
  color : String
  order : Int
deriving DecidableEq

/-- One element of the `updates` payload of `PATCH /tasks/board/:boardId/orders`. -/
structure OrderUpdate where
  id : String
  order : Int
deriving DecidableEq

/-- The server's structured error (`ApiError(statusCode, message)`). -/
structure ApiError where
  statusCode : Nat
  message : String
deriving DecidableEq

/-- A user document, restricted to the fields selected by
`populate('owner', 'firstName lastName avatar')`. -/
structure User where
  id : String
  firstName : String
  lastName : String
  avatar : String
deriving DecidableEq

/-- A color-palette document, restricted to the fields selected by
`populate('color', 'name value')`. -/
structure ColorDoc where
  id : String
  name : String
  value : String
deriving DecidableEq

/-- A task together with its populated `owner` and `color` references, the
shape returned by the server's `moveTask`. -/
structure PopulatedTask where
  task : Task
  ownerDoc : Option User
  colorDoc : Option ColorDoc
deriving DecidableEq

/-! ### Client-side helpers (KanbanBoard component) -/

/-- The comparison used by `tasksData.sort((a, b) => a.order - b.order)`. -/
def leOrder (a b : Task) : Prop := a.order ≤ b.order

instance : DecidableRel leOrder := fun a b => inferInstanceAs (Decidable (a.order ≤ b.order))

instance : IsTotal Task leOrder := ⟨fun a b => Int.le_total a.order b.order⟩

instance : IsTrans Task leOrder := ⟨fun _ _ _ h h' => Int.le_trans h h'⟩

/-- The comparison of Mongoose `.sort({ createdAt: -1 })` (newest first). -/
def geCreatedAt (a b : Task) : Prop := b.createdAt ≤ a.createdAt

instance : DecidableRel geCreatedAt := fun a b => inferInstanceAs (Decidable (b.createdAt ≤ a.createdAt))

instance : IsTotal Task geCreatedAt := ⟨fun a b => Int.le_total b.createdAt a.createdAt⟩

instance : IsTrans Task geCreatedAt := ⟨fun _ _ _ h h' => Int.le_trans h' h⟩

/-- Models `tasksData.sort((a, b) => a.order - b.order)`: a stable ascending
sort on the `order` field (JS array sort is stable, modelled by stable
insertion sort). -/
def sortByOrder (ts : List Task) : List Task :=
  List.insertionSort leOrder ts

/-- Models Mongoose `.sort({ createdAt: -1 })`: descending on `createdAt`. -/
def sortByCreatedAtDesc (ts : List Task) : List Task :=
  List.insertionSort geCreatedAt ts

/-- dnd-kit's `arrayMove(array, from, to)`:
`newArray.splice(to, 0, newArray.splice(from, 1)[0])`.
For an in-range `i` this removes the element at `i` and re-inserts it at
`j` (JS `splice` clamps an insertion index past the end to the length).
The handler only invokes it with indices obtained from successful
`findIndex` calls, so the out-of-range `i` case (where JS would splice in
`undefined`) is modelled as the identity. -/
def arrayMove (l : List α) (i j : Nat) : List α :=
  match l[i]? with
  | some x => (l.eraseIdx i).insertIdx (min j (l.eraseIdx i).length) x
  | none => l

/-- Models `reorderedTasks.map((task, index) => ({ ...task, order: index }))`. -/
def assignOrders (ts : List Task) : List Task :=
  ts.enum.map (fun p => { p.2 with order := (p.1 : Int) })

/-- Models `Math.max(...targetColumnTasks.map(t => t.order))` for the
nonempty list the code guards for (`targetColumnTasks.length > 0`). -/
def maxOrderOf : List Task → Int
  | [] => 0
  | t :: ts => ts.foldl (fun m u => max m u.order) t.order

/-- The `newOrder` computed for a cross-column move:
`targetColumnTasks.length > 0 ? Math.max(...) + 1 : 0`. -/
def crossNewOrder (targetColumnTasks : List Task) : Int :=
  if targetColumnTasks.length > 0 then maxOrderOf targetColumnTasks + 1 else 0

/-- The optimistic update of a cross-column move:
`prev.map(task => task._id === activeTask._id ? { ...task, status, order } : task)`. -/
def crossMoveOptimistic (tasks : List Task) (activeId targetColumnId : String)
    (newOrder : Int) : List Task :=
  tasks.map fun t =>
    if t.id == activeId then { t with status := targetColumnId, order := newOrder } else t

/-- The rollback in the `catch` of a failed cross-column move:
`prev.map(task => task._id === activeTask._id ? { ...task, status: originalStatus, order: activeTask.order } : task)`. -/
def crossMoveRevert (tasks : List Task) (activeId originalStatus : String)
    (originalOrder : Int) : List Task :=
  tasks.map fun t =>
    if t.id == activeId then { t with status := originalStatus, order := originalOrder } else t

/-- The same-column branch of `handleDragEnd`: sort the column by order,
find the indices of the active and over tasks, and if they differ produce
the `updatedTasks` list (`arrayMove` followed by `order := index`).
`none` means the branch performs no state change and no server call.
JS `findIndex` returning `-1` is modelled by `findIdx?` returning `none`;
the active task was looked up in `tasks` at drag start and the over task by
`tasks.find`, so both indices are found whenever the branch runs. -/
def sameColumnUpdated (tasks : List Task) (columnId activeId overId : String) :
    Option (List Task) :=
  let columnTasks := sortByOrder (tasks.filter (fun t => t.status == columnId))
  match columnTasks.findIdx? (fun t => t.id == activeId),
        columnTasks.findIdx? (fun t => t.id == overId) with
  | some oldIndex, some newIndex =>
    if oldIndex ≠ newIndex then
      some (assignOrders (arrayMove columnTasks oldIndex newIndex))
    else none
  | _, _ => none

/-- The state update of a successful same-column reorder:
`[...prev.filter(task => task.status !== targetColumnId), ...updatedTasks]`. -/
def reorderApply (tasks : List Task) (columnId : String) (updated : List Task) :
    List Task :=
  tasks.filter (fun t => !(t.status == columnId)) ++ updated

/-- Target-column resolution in `handleDragEnd`: `over.id` is either a known
column id, or a task id whose task supplies its current column, else the
handler bails out. -/
def resolveTargetColumn (columns : List ColumnData) (tasks : List Task)
    (overId : String) : Option String :=
  if columns.any (fun c => c.id == overId) then some overId
  else (tasks.find? (fun t => t.id == overId)).map (·.status)

/-! ### Server-side task service -/

/-- Updates the (unique) document matching `id`; Mongoose
`findByIdAndUpdate` touches exactly one document, modelled as
first-match update on the list. -/
def updateFirst (db : List Task) (id : String) (f : Task → Task) : List Task :=
  match db with
  | [] => []
  | t :: rest => if t.id == id then f t :: rest else t :: updateFirst rest id f

/-- The `{ status: newStatus, order: newOrder }` update document of
`moveTask`.  The controller destructures `order` from the request body; when
the client omits it (the `handleTaskMove` call path) the field is
`undefined`, which Mongoose strips from the update, leaving `order`
unchanged — modelled by `Option Int`. -/
def applyMoveUpdate (newStatus : String) (newOrder : Option Int) (t : Task) : Task :=
  { t with status := newStatus, order := newOrder.getD t.order }

/-- Models `task.populate([{path:'owner',...},{path:'color',...}])`:
resolve the reference ids against the users and colors collections. -/
def populateTask (users : List User) (colors : List ColorDoc) (t : Task) :
    PopulatedTask :=
  { task := t
    ownerDoc := t.owner.bind (fun oid => users.find? (fun u => u.id == oid))
    colorDoc := colors.find? (fun c => c.id == t.color) }

/-- Server `moveTask(taskId, newStatus, newOrder)`:
`Task.findByIdAndUpdate(taskId, { status, order }, { new: true })` with
populate, throwing `ApiError(404, 'Task not found')` when no document
matches.  Returns the updated database together with the populated updated
task. -/
def moveTask (users : List User) (colors : List ColorDoc) (db : List Task)
    (taskId newStatus : String) (newOrder : Option Int) :
    Except ApiError (List Task × PopulatedTask) :=
  match db.find? (fun t => t.id == taskId) with
  | none => .error ⟨404, "Task not found"⟩
  | some t =>
    .ok (updateFirst db taskId (applyMoveUpdate newStatus newOrder),
         populateTask users colors (applyMoveUpdate newStatus newOrder t))

/-- One `updateOne` operation of the bulk write:
`{ filter: { _id: update.id }, update: { order: update.order } }`.
A filter matching no document is not an error — the operation is skipped. -/
def applyOrderUpdate (db : List Task) (u : OrderUpdate) : List Task :=
  updateFirst db u.id (fun t => { t with order := u.order })

/-- Server `updateOrders(updates)`: `Task.bulkWrite` of the per-id
`updateOne` operations, applied in sequence; never fails on absent ids
and performs no validation of the resulting orders. -/
def updateOrders (db : List Task) (updates : List OrderUpdate) : List Task :=
  updates.foldl applyOrderUpdate db

/-- Server `getTasksByBoard(boardId)`:
`Task.find({ boardId }).sort({ createdAt: -1 })` — sorted by creation time
descending, not by `order`. -/
def getTasksByBoard (db : List Task) (boardId : String) : List Task :=
  sortByCreatedAtDesc (db.filter (fun t => t.boardId == boardId))

/-- The client's fetch path (`fetchBoardData` and the bulk-reorder failure
recovery): `TaskService.getByBoard(boardId)` followed by
`tasksData.sort((a, b) => a.order - b.order)`. -/
def clientFetchTasks (db : List Task) (boardId : String) : List Task :=
  sortByOrder (getTasksByBoard db boardId)

/-! ### Auto-move-to-done heuristic (handleTaskSave) -/

/-- Models `columns.reduce((max, col) => (col.order > max.order ? col : max), columns[0])`,
which is `undefined` on an empty column list (guarded by `if (doneColumn)`). -/
def doneColumnOf (columns : List ColumnData) : Option ColumnData :=
  match columns with
  | [] => none
  | c :: _ => some (columns.foldl (fun mx col => if mx.order < col.order then col else mx) c)

/-- The auto-move decision of `handleTaskSave`: when the saved task has a
non-empty checklist, every item is completed and its status is not the
literal string "done", the client issues `handleTaskMove(result._id,
doneColumn.id)` targeting the highest-order column.  Returns the new status
passed to the move, `none` when no auto-move is issued. -/
def autoMoveTarget (columns : List ColumnData) (result : Task) : Option String :=
  let hasChecklist := result.checklist.length > 0
  let allCompleted := hasChecklist && result.checklist.all (fun item => item.completed)
  if hasChecklist && allCompleted && !(result.status == "done") then
    (doneColumnOf columns).map (·.id)
  else none

/-! ### Combined client/server system (for the round-trip property) -/

/-- The projection of a task that the ordering protocol manipulates. -/
def keyOf (t : Task) : String × String × Int := (t.id, t.status, t.order)

/-- The sequence of tasks the client displays for a column:
`tasks.filter(task => task.status === column.id)`, rendered in array order. -/
def displayCol (client : List Task) (colId : String) : List Task :=
  client.filter (fun t => t.status == colId)

/-- The column sequence obtained by fetching the board from the server and
ordering the column's tasks by `order` ascending. -/
def serverColView (server : List Task) (boardId colId : String) : List Task :=
  sortByOrder ((getTasksByBoard server boardId).filter (fun t => t.status == colId))

/-- The client's task list paired with the server's task collection. -/
structure SystemState where
  client : List Task
  server : List Task
deriving DecidableEq

/-- One successful drag gesture processed by `handleDragEnd`: the client
applies its optimistic update and the server applies the corresponding
persistence call (`moveTask` for a cross-column drag, `updateOrders` for a
same-column reorder).  Unresolvable drops are the identity. -/
def dragStep (columns : List ColumnData) (s : SystemState)
    (activeId overId : String) : SystemState :=
  match s.client.find? (fun t => t.id == activeId) with
  | none => s
  | some activeTask =>
    match resolveTargetColumn columns s.client overId with
    | none => s
    | some targetColumnId =>
      if !(activeTask.status == targetColumnId) then
        let targetColumnTasks := s.client.filter (fun t => t.status == targetColumnId)
        let newOrder := crossNewOrder targetColumnTasks
        { client := crossMoveOptimistic s.client activeTask.id targetColumnId newOrder,
          server := updateFirst s.server activeTask.id
                      (applyMoveUpdate targetColumnId (some newOrder)) }
      else
        match s.client.find? (fun t => t.id == overId) with
        | none => s
        | some _ =>
          match sameColumnUpdated s.client targetColumnId activeTask.id overId with
          | some updated =>
            { client := reorderApply s.client targetColumnId updated,
              server := updateOrders s.server (updated.map (fun t => ⟨t.id, t.order⟩)) }
          | none => s

/-- The same-column reorder fragment of `dragStep`: a drag that does not
resolve to a same-column reorder over another task is the identity.  Used
to state the round-trip property for sequences of reorder operations. -/
def reorderStep (s : SystemState) (activeId overId : String) : SystemState :=
  match s.client.find? (fun t => t.id == activeId) with
  | none => s
  | some activeTask =>
    match s.client.find? (fun t => t.id == overId) with
    | none => s
    | some overTask =>
      if activeTask.status == overTask.status && !(activeTask.id == overTask.id) then
        match sameColumnUpdated s.client activeTask.status activeTask.id overId with
        | some updated =>
          { client := reorderApply s.client activeTask.status updated,
            server := updateOrders s.server (updated.map (fun t => ⟨t.id, t.order⟩)) }
        | none => s
      else s

/-- Iterate `dragStep` over a sequence of drag gestures. -/
def applyDrags (columns : List ColumnData) (s : SystemState)
    (ops : List (String × String)) : SystemState :=
  ops.foldl (fun st op => dragStep columns st op.1 op.2) s

/-- Iterate `reorderStep` over a sequence of reorder gestures. -/
def applyReorders (s : SystemState) (ops : List (String × String)) : SystemState :=
  ops.foldl (fun st op => reorderStep st op.1 op.2) s

/-- Per-column strict sortedness of the client's displayed orders, stated
over the statuses occurring in the list so that it is decidable on concrete
states. -/
def ColSortedOk (client : List Task) : Prop :=
  ∀ colId ∈ client.map Task.status,
    ((client.filter (fun t => t.status == colId)).map Task.order).Pairwise (· < ·)

/-- The synchronisation invariant between the client's task list and the
server collection for board `B`: the protocol-relevant projections agree up
to permutation, server ids are unique, and every displayed column is
strictly sorted by `order`. -/
def Synced (B : String) (client server : List Task) : Prop :=
  (client.map keyOf).Perm ((server.filter (fun t => t.boardId == B)).map keyOf) ∧
  (server.map Task.id).Nodup ∧
  (∀ t ∈ client, t.boardId = B) ∧
  ColSortedOk client

/-! ### Helper lemmas -/

theorem updateFirst_of_not_mem (db : List Task) (id : String) (f : Task → Task)
    (h : ∀ t ∈ db, t.id ≠ id) : updateFirst db id f = db := by
  induction db with
  | nil => rfl
  | cons t rest ih =>
    have ht : t.id ≠ id := h t (List.mem_cons_self t rest)
    simp only [updateFirst, beq_iff_eq, if_neg ht]
    exact congrArg (t :: ·) (ih fun u hu => h u (List.mem_cons_of_mem t hu))

theorem map_update_id_of_not_mem (l : List Task) (id : String) (f : Task → Task)
    (h : ∀ t ∈ l, t.id ≠ id) :
    l.map (fun t => if t.id == id then f t else t) = l := by
  induction l with
  | nil => rfl
  | cons t rest ih =>
    have ht : t.id ≠ id := h t (List.mem_cons_self t rest)
    have ih' := ih fun u hu => h u (List.mem_cons_of_mem t hu)
    simp [ht]
    simpa using ih'

theorem updateFirst_eq_map (db : List Task) (id : String) (f : Task → Task)
    (h : (db.map Task.id).Nodup) :
    updateFirst db id f = db.map (fun t => if t.id == id then f t else t) := by
  induction db with
  | nil => rfl
  | cons t rest ih =>
    simp only [List.map_cons, List.nodup_cons, List.mem_map] at h
    by_cases ht : t.id = id
    · subst ht
      have hrest := map_update_id_of_not_mem rest t.id f (fun u hu he => h.1 ⟨u, hu, he⟩)
      simp [updateFirst]
      simpa using hrest.symm
    · have ih' := ih h.2
      simp [updateFirst, ht]
      simpa using ih'

theorem updateFirst_map_id (db : List Task) (id : String) (f : Task → Task)
    (hf : ∀ t, (f t).id = t.id) :
    (updateFirst db id f).map Task.id = db.map Task.id := by
  induction db with
  | nil => rfl
  | cons t rest ih =>
    by_cases ht : t.id = id
    · simp [updateFirst, ht, hf]
    · simp only [updateFirst, beq_iff_eq, if_neg ht, List.map_cons]
      exact congrArg (t.id :: ·) ih

theorem foldl_max_spec (l : List Task) (a : Int) :
    (l.foldl (fun m u => max m u.order) a = a ∨
      ∃ t ∈ l, l.foldl (fun m u => max m u.order) a = t.order) ∧
    a ≤ l.foldl (fun m u => max m u.order) a ∧
    ∀ t ∈ l, t.order ≤ l.foldl (fun m u => max m u.order) a := by
  induction l generalizing a with
  | nil => exact ⟨Or.inl rfl, le_refl a, fun t ht => absurd ht (List.not_mem_nil t)⟩
  | cons u rest ih =>
    obtain ⟨hmem, hinit, hub⟩ := ih (max a u.order)
    refine ⟨?_, le_trans (le_max_left a u.order) hinit, ?_⟩
    · rcases hmem with hkeep | ⟨t, ht, he⟩
      · rcases max_choice a u.order with hc | hc
        · exact Or.inl (by simpa [List.foldl_cons, hc] using hkeep)
        · exact Or.inr ⟨u, List.mem_cons_self u rest, by simpa [List.foldl_cons, hc] using hkeep⟩
      · exact Or.inr ⟨t, List.mem_cons_of_mem u ht, he⟩
    · intro t ht
      rcases List.mem_cons.mp ht with he | hr
      · subst he
        exact le_trans (le_max_right a t.order) hinit
      · exact hub t hr

theorem maxOrderOf_spec (ts : List Task) (h : ts ≠ []) :
    (∃ t ∈ ts, maxOrderOf ts = t.order) ∧ ∀ t ∈ ts, t.order ≤ maxOrderOf ts := by
  match ts with
  | [] => exact absurd rfl h
  | t :: rest =>
    obtain ⟨hmem, hinit, hub⟩ := foldl_max_spec rest t.order
    refine ⟨?_, ?_⟩
    · rcases hmem with hkeep | ⟨u, hu, he⟩
      · exact ⟨t, List.mem_cons_self t rest, hkeep⟩
      · exact ⟨u, List.mem_cons_of_mem t hu, he⟩
    · intro u hu
      rcases List.mem_cons.mp hu with he | hr
      · subst he; exact hinit
      · exact hub u hr

theorem foldl_maxcol_spec (l : List ColumnData) (acc : ColumnData) :
    (l.foldl (fun mx col => if mx.order < col.order then col else mx) acc = acc ∨
      l.foldl (fun mx col => if mx.order < col.order then col else mx) acc ∈ l) ∧
    acc.order ≤ (l.foldl (fun mx col => if mx.order < col.order then col else mx) acc).order ∧
    ∀ c ∈ l, c.order ≤ (l.foldl (fun mx col => if mx.order < col.order then col else mx) acc).order := by
  induction l generalizing acc with
  | nil => exact ⟨Or.inl rfl, le_refl _, fun c hc => absurd hc (List.not_mem_nil c)⟩
  | cons u rest ih =>
    obtain ⟨hmem, hinit, hub⟩ := ih (if acc.order < u.order then u else acc)
    have hstep : acc.order ≤ (if acc.order < u.order then u else acc).order := by
      by_cases hc : acc.order < u.order
      · simpa [hc] using le_of_lt hc
      · simp [hc]
    have hustep : u.order ≤ (if acc.order < u.order then u else acc).order := by
      by_cases hc : acc.order < u.order
      · simp [hc]
      · simpa [hc] using le_of_not_lt hc
    refine ⟨?_, le_trans hstep hinit, ?_⟩
    · rcases hmem with hkeep | hmem
      · by_cases hc : acc.order < u.order
        · exact Or.inr (by simpa [List.foldl_cons, hc] using Or.inl hkeep : _ ∈ u :: rest)
        · exact Or.inl (by simpa [List.foldl_cons, hc] using hkeep)
      · exact Or.inr (List.mem_cons_of_mem u hmem)
    · intro c hc
      rcases List.mem_cons.mp hc with he | hr
      · subst he; exact le_trans hustep hinit
      · exact hub c hr

theorem doneColumnOf_spec (columns : List ColumnData) (h : columns ≠ []) :
    ∃ c, doneColumnOf columns = some c ∧ c ∈ columns ∧
      ∀ c' ∈ columns, c'.order ≤ c.order := by
  match columns with
  | [] => exact absurd rfl h
  | c₀ :: rest =>
    obtain ⟨hmem, _, hub⟩ := foldl_maxcol_spec (c₀ :: rest)
      (if c₀.order < c₀.order then c₀ else c₀)
    have hsimp : (if c₀.order < c₀.order then c₀ else c₀) = c₀ := by simp
    rw [hsimp] at hmem hub
    refine ⟨(c₀ :: rest).foldl (fun mx col => if mx.order < col.order then col else mx) c₀,
      ?_, ?_, hub⟩
    · simp [doneColumnOf, List.foldl_cons]
    · rcases hmem with hkeep | hmem
      · rw [hkeep]; exact List.mem_cons_self c₀ rest
      · exact hmem

theorem find?_eq_of_mem_nodup {db : List Task} {t : Task} {id : String}
    (hnd : (db.map Task.id).Nodup) (ht : t ∈ db) (hid : t.id = id) :
    db.find? (fun u => u.id == id) = some t := by
  induction db with
  | nil => exact absurd ht (List.not_mem_nil t)
  | cons u rest ih =>
    simp only [List.map_cons, List.nodup_cons, List.mem_map] at hnd
    by_cases hu : u.id = id
    · have : t = u := by
        rcases List.mem_cons.mp ht with he | hr
        · exact he
        · exact absurd ⟨t, hr, hid.trans hu.symm⟩ hnd.1
      subst this
      simp [List.find?_cons_of_pos, hu]
    · have hr : t ∈ rest := by
        rcases List.mem_cons.mp ht with he | hr
        · exact absurd (he ▸ hid) hu
        · exact hr
      rw [List.find?_cons_of_neg _ (by simpa using hu)]
      exact ih hnd.2 hr

theorem assignOrders_length (l : List Task) : (assignOrders l).length = l.length := by
  simp [assignOrders]

theorem assignOrders_getElem (l : List Task) (i : Nat) (hi : i < l.length) :
    (assignOrders l)[i]? = some { l[i] with order := (i : Int) } := by
  have hie : i < l.enum.length := by simpa using hi
  have he : l.enum[i]? = some (i, l[i]) := by
    have h1 : l.enum[i]? = some l.enum[i] := List.getElem?_eq_getElem hie
    rw [h1, List.getElem_enum]
  rw [assignOrders, List.getElem?_map, he]
  rfl

theorem assignOrders_map_order (l : List Task) :
    (assignOrders l).map Task.order = (List.range l.length).map Int.ofNat := by
  rw [assignOrders, List.map_map]
  have h : (Task.order ∘ fun p : Nat × Task => { p.2 with order := (p.1 : Int) }) =
      (Int.ofNat ∘ Prod.fst) := rfl
  rw [h, ← List.map_map, List.enum_map_fst]

theorem assignOrders_orders_pairwise (l : List Task) :
    ((assignOrders l).map Task.order).Pairwise (· < ·) := by
  rw [assignOrders_map_order]
  rw [List.pairwise_map]
  exact (List.pairwise_lt_range l.length).imp (fun h => Int.ofNat_lt.mpr h)

theorem assignOrders_map_id (l : List Task) :
    (assignOrders l).map Task.id = l.map Task.id := by
  rw [assignOrders, List.map_map]
  have h : (Task.id ∘ fun p : Nat × Task => { p.2 with order := (p.1 : Int) }) =
      (Task.id ∘ Prod.snd) := rfl
  rw [h, ← List.map_map, List.enum_map_snd]

theorem assignOrders_map_status (l : List Task) :
    (assignOrders l).map Task.status = l.map Task.status := by
  rw [assignOrders, List.map_map]
  have h : (Task.status ∘ fun p : Nat × Task => { p.2 with order := (p.1 : Int) }) =
      (Task.status ∘ Prod.snd) := rfl
  rw [h, ← List.map_map, List.enum_map_snd]

theorem arrayMove_eq_erase_insert (l : List Task) (i j : Nat)
    (hi : i < l.length) (hj : j < l.length) :
    arrayMove l i j = (l.eraseIdx i).insertIdx j l[i] := by
  have hxe : l[i]? = some l[i] := List.getElem?_eq_getElem hi
  have hlen : (l.eraseIdx i).length = l.length - 1 :=
    List.length_eraseIdx_of_lt hi
  have hmin : min j (l.eraseIdx i).length = j := by
    rw [hlen]; omega
  rw [arrayMove, hxe, hmin]

theorem findIdx?_bound {l : List Task} {p : Task → Bool} {i : Nat}
    (h : l.findIdx? p = some i) : i < l.length ∧ ∃ x, l[i]? = some x ∧ p x := by
  obtain ⟨hlt, hp, -⟩ := List.findIdx?_eq_some_iff_getElem.mp h
  exact ⟨hlt, l[i], List.getElem?_eq_getElem hlt, hp⟩

theorem updateOrders_eq_map (db : List Task) (updates : List OrderUpdate)
    (hdb : (db.map Task.id).Nodup) (hup : (updates.map OrderUpdate.id).Nodup) :
    updateOrders db updates =
      db.map (fun t => match updates.find? (fun u => u.id == t.id) with
        | some u => { t with order := u.order }
        | none => t) := by
  induction updates generalizing db with
  | nil => simp [updateOrders]
  | cons u us ih =>
    have hstep : applyOrderUpdate db u =
        db.map (fun t => if t.id == u.id then { t with order := u.order } else t) := by
      rw [applyOrderUpdate, updateFirst_eq_map db u.id _ hdb]
    have hids : (applyOrderUpdate db u).map Task.id = db.map Task.id :=
      updateFirst_map_id db u.id _ (fun t => rfl)
    simp only [List.map_cons, List.nodup_cons, List.mem_map] at hup
    have hcons : updateOrders db (u :: us) = updateOrders (applyOrderUpdate db u) us := rfl
    rw [hcons, ih (applyOrderUpdate db u) (hids ▸ hdb) hup.2, hstep, List.map_map]
    refine List.map_congr_left ?_
    intro t _
    by_cases hid : t.id = u.id
    · have hnone : us.find? (fun v => v.id == u.id) = none := by
        refine List.find?_eq_none.mpr (fun v hv => ?_)
        simp only [beq_iff_eq]
        intro he
        exact hup.1 ⟨v, hv, he⟩
      have hhead : (u :: us).find? (fun v => v.id == t.id) = some u :=
        List.find?_cons_of_pos _ (by simpa using hid.symm)
      simp [Function.comp, hid, hnone, hhead]
    · have htail : (u :: us).find? (fun v => v.id == t.id) =
          us.find? (fun v => v.id == t.id) :=
        List.find?_cons_of_neg _ (by simpa using fun he => hid he.symm)
      simp [Function.comp, hid, htail]

theorem updateOrders_map_id (db : List Task) (updates : List OrderUpdate) :
    (updateOrders db updates).map Task.id = db.map Task.id := by
  induction updates generalizing db with
  | nil => rfl
  | cons u us ih =>
    have hids : (applyOrderUpdate db u).map Task.id = db.map Task.id :=
      updateFirst_map_id db u.id _ (fun t => rfl)
    exact (ih (applyOrderUpdate db u)).trans hids

/-! ### Helper lemmas for the round-trip invariant -/

theorem eraseIdx_cons_perm (l : List Task) (i : Nat) (hi : i < l.length) :
    (l[i] :: l.eraseIdx i).Perm l := by
  have hsplit : l = l.take i ++ l[i] :: l.drop (i + 1) := by
    rw [List.getElem_cons_drop l i hi, List.take_append_drop]
  have herase : l.eraseIdx i = l.take i ++ l.drop (i + 1) :=
    List.eraseIdx_eq_take_drop_succ l i
  rw [herase]
  have h1 : (l[i] :: (l.take i ++ l.drop (i + 1))).Perm
      (l.take i ++ l[i] :: l.drop (i + 1)) := List.perm_middle.symm
  exact h1.trans (List.Perm.of_eq hsplit.symm)

theorem arrayMove_perm (l : List Task) (i j : Nat)
    (hi : i < l.length) (hj : j < l.length) : (arrayMove l i j).Perm l := by
  rw [arrayMove_eq_erase_insert l i j hi hj]
  have hj' : j ≤ (l.eraseIdx i).length := by
    rw [List.length_eraseIdx_of_lt hi]; omega
  exact (List.perm_insertIdx (l[i]) _ hj').trans (eraseIdx_cons_perm l i hi)

theorem mem_assignOrders {t : Task} {l : List Task} (h : t ∈ assignOrders l) :
    ∃ u ∈ l, t.id = u.id ∧ t.status = u.status ∧ t.boardId = u.boardId := by
  rw [assignOrders] at h
  obtain ⟨p, hp, he⟩ := List.mem_map.mp h
  refine ⟨p.2, ?_, by rw [← he], by rw [← he], by rw [← he]⟩
  have : p.2 ∈ l.enum.map Prod.snd := List.mem_map_of_mem Prod.snd hp
  rwa [List.enum_map_snd] at this

theorem find?_ou_eq_of_mem_nodup {l : List OrderUpdate} {u : OrderUpdate} {id : String}
    (hnd : (l.map OrderUpdate.id).Nodup) (hu : u ∈ l) (hid : u.id = id) :
    l.find? (fun v => v.id == id) = some u := by
  induction l with
  | nil => exact absurd hu (List.not_mem_nil u)
  | cons v rest ih =>
    simp only [List.map_cons, List.nodup_cons, List.mem_map] at hnd
    by_cases hv : v.id = id
    · have : u = v := by
        rcases List.mem_cons.mp hu with he | hr
        · exact he
        · exact absurd ⟨u, hr, hid.trans hv.symm⟩ hnd.1
      subst this
      simp [List.find?_cons_of_pos, hv]
    · have hr : u ∈ rest := by
        rcases List.mem_cons.mp hu with he | hr
        · exact absurd (he ▸ hid) hv
        · exact hr
      rw [List.find?_cons_of_neg _ (by simpa using hv)]
      exact ih hnd.2 hr

/-- The per-key effect of the bulk order write: overwrite the order of the
keys named in the updates list. -/
def overrideKey (pairs : List OrderUpdate) (k : String × String × Int) :
    String × String × Int :=
  match pairs.find? (fun u => u.id == k.1) with
  | some u => (k.1, k.2.1, u.order)
  | none => k

theorem keyOf_override (pairs : List OrderUpdate) (t : Task) :
    keyOf (match pairs.find? (fun u => u.id == t.id) with
      | some u => { t with order := u.order }
      | none => t) = overrideKey pairs (keyOf t) := by
  cases hf : pairs.find? (fun u => u.id == t.id) with
  | none => simp [overrideKey, keyOf, hf]
  | some u => simp [overrideKey, keyOf, hf]

theorem assignOrders_keys_override (l : List Task) (hnd : (l.map Task.id).Nodup) :
    (assignOrders l).map keyOf =
      (l.map keyOf).map
        (overrideKey ((assignOrders l).map (fun t => OrderUpdate.mk t.id t.order))) := by
  have hpairs_ids : ((assignOrders l).map (fun t => OrderUpdate.mk t.id t.order)).map
      OrderUpdate.id = l.map Task.id := by
    rw [List.map_map]
    exact assignOrders_map_id l
  apply List.ext_getElem?
  intro k
  by_cases hk : k < l.length
  · have h1 : (assignOrders l)[k]? = some { l[k] with order := (k : Int) } :=
      assignOrders_getElem l k hk
    have h2 : ((assignOrders l).map keyOf)[k]? = some (l[k].id, l[k].status, (k : Int)) := by
      rw [List.getElem?_map, h1]
      rfl
    have h3 : ((l.map keyOf).map
        (overrideKey ((assignOrders l).map (fun t => OrderUpdate.mk t.id t.order))))[k]? =
        some (overrideKey ((assignOrders l).map (fun t => OrderUpdate.mk t.id t.order))
          (keyOf l[k])) := by
      rw [List.getElem?_map, List.getElem?_map, List.getElem?_eq_getElem hk]
      rfl
    have hfind : ((assignOrders l).map (fun t => OrderUpdate.mk t.id t.order)).find?
        (fun v => v.id == l[k].id) = some (OrderUpdate.mk l[k].id (k : Int)) := by
      have hmem : ({ l[k] with order := (k : Int) } : Task) ∈ assignOrders l :=
        List.getElem?_mem h1
      have hmem' : (OrderUpdate.mk (l[k]).id (k : Int)) ∈
          (assignOrders l).map (fun t => OrderUpdate.mk t.id t.order) := by
        have := List.mem_map_of_mem (fun t => OrderUpdate.mk t.id t.order) hmem
        simpa using this
      exact find?_ou_eq_of_mem_nodup (hpairs_ids ▸ hnd) hmem' rfl
    rw [h2, h3, overrideKey]
    simp only [keyOf, hfind]
  · have hk1 : ((assignOrders l).map keyOf)[k]? = none := by
      rw [List.getElem?_eq_none]
      simpa [assignOrders_length] using Nat.le_of_not_lt hk
    have hk2 : ((l.map keyOf).map
        (overrideKey ((assignOrders l).map (fun t => OrderUpdate.mk t.id t.order))))[k]? =
        none := by
      rw [List.getElem?_eq_none]
      simpa using Nat.le_of_not_lt hk
    rw [hk1, hk2]

theorem perm_pairwise_strict_eq {α : Type} (f : α → Int) :
    ∀ {l₁ l₂ : List α}, l₁.Perm l₂ → l₁.Pairwise (fun a b => f a < f b) →
      l₂.Pairwise (fun a b => f a < f b) → l₁ = l₂
  | [], l₂, hp, _, _ => (hp.nil_eq).symm ▸ rfl
  | a :: t₁, [], hp, _, _ => absurd hp.eq_nil (by simp)
  | a :: t₁, b :: t₂, hp, h₁, h₂ => by
    have hab : a = b := by
      by_contra hne
      have ha : a ∈ t₂ := by
        have := hp.mem_iff.mp (List.mem_cons_self a t₁)
        rcases List.mem_cons.mp this with he | hm
        · exact absurd he hne
        · exact hm
      have hb : b ∈ t₁ := by
        have := hp.symm.mem_iff.mp (List.mem_cons_self b t₂)
        rcases List.mem_cons.mp this with he | hm
        · exact absurd he.symm hne
        · exact hm
      have h1 : f a < f b := (List.pairwise_cons.mp h₁).1 b hb
      have h2 : f b < f a := (List.pairwise_cons.mp h₂).1 a ha
      omega
    subst hab
    have ht : t₁ = t₂ :=
      perm_pairwise_strict_eq f hp.cons_inv
        (List.pairwise_cons.mp h₁).2 (List.pairwise_cons.mp h₂).2
    rw [ht]

theorem colSortedOk_all {client : List Task} (h : ColSortedOk client) (colId : String) :
    ((client.filter (fun t => t.status == colId)).map Task.order).Pairwise (· < ·) := by
  by_cases hmem : colId ∈ client.map Task.status
  · exact h colId hmem
  · have : client.filter (fun t => t.status == colId) = [] := by
      refine List.filter_eq_nil_iff.mpr (fun t ht => ?_)
      simp only [beq_iff_eq]
      intro he
      exact hmem (List.mem_map.mpr ⟨t, ht, he⟩)
    simp [this]

theorem keys_map_fst (l : List Task) :
    (l.map keyOf).map (fun k => k.1) = l.map Task.id := by
  rw [List.map_map]; rfl

theorem keys_map_order (l : List Task) :
    (l.map keyOf).map (fun k => k.2.2) = l.map Task.order := by
  rw [List.map_map]; rfl

theorem filter_keys (l : List Task) (colId : String) :
    (l.filter (fun t => t.status == colId)).map keyOf =
      (l.map keyOf).filter (fun k => k.2.1 == colId) := by
  rw [List.filter_map]
  rfl

theorem synced_client_ids_nodup {B : String} {client server : List Task}
    (h : Synced B client server) : (client.map Task.id).Nodup := by
  obtain ⟨hperm, hnd, -, -⟩ := h
  have hsub : ((server.filter (fun t => t.boardId == B)).map Task.id).Sublist
      (server.map Task.id) :=
    (List.filter_sublist server).map Task.id
  have hnd' : ((server.filter (fun t => t.boardId == B)).map Task.id).Nodup :=
    hsub.nodup hnd
  have hperm' : (client.map Task.id).Perm
      ((server.filter (fun t => t.boardId == B)).map Task.id) := by
    have := hperm.map (fun k : String × String × Int => k.1)
    rwa [keys_map_fst, keys_map_fst] at this
  exact hperm'.nodup_iff.mpr hnd'

/-- The central consequence of `Synced`: for every column the sequence the
client displays equals the order-sorted column of a fresh server fetch. -/
theorem synced_display {B : String} {client server : List Task}
    (h : Synced B client server) (colId : String) :
    (displayCol client colId).map Task.id = (serverColView server B colId).map Task.id := by
  obtain ⟨hperm, hnd, hboard, hsorted⟩ := h
  -- key-level permutation between the displayed column and the fetched view
  have hkeysperm : ((displayCol client colId).map keyOf).Perm
      ((serverColView server B colId).map keyOf) := by
    have h1 : ((displayCol client colId).map keyOf).Perm
        (((server.filter (fun t => t.boardId == B)).filter
          (fun t => t.status == colId)).map keyOf) := by
      rw [displayCol, filter_keys, filter_keys]
      exact hperm.filter (fun k => k.2.1 == colId)
    have h2 : (serverColView server B colId).Perm
        ((server.filter (fun t => t.boardId == B)).filter
          (fun t => t.status == colId)) := by
      rw [serverColView, getTasksByBoard, sortByOrder, sortByCreatedAtDesc]
      exact (List.perm_insertionSort leOrder _).trans
        ((List.perm_insertionSort geCreatedAt _).filter _)
    exact h1.trans (h2.map keyOf).symm
  -- the displayed column is strictly sorted by order
  have hdisp : ((displayCol client colId).map Task.order).Pairwise (· < ·) :=
    colSortedOk_all hsorted colId
  -- the fetched view is sorted by order, with distinct orders
  have hview_le : ((serverColView server B colId).map Task.order).Pairwise (· ≤ ·) := by
    have := List.sorted_insertionSort leOrder
      ((getTasksByBoard server B).filter (fun t => t.status == colId))
    rw [List.Sorted] at this
    rw [List.pairwise_map]
    exact this.imp (fun hab => hab)
  have hview_ne : ((serverColView server B colId).map Task.order).Nodup := by
    have hpo : ((displayCol client colId).map Task.order).Perm
        ((serverColView server B colId).map Task.order) := by
      have := hkeysperm.map (fun k : String × String × Int => k.2.2)
      rwa [keys_map_order, keys_map_order] at this
    have hdnd : ((displayCol client colId).map Task.order).Nodup :=
      List.Pairwise.imp (fun hab => Int.ne_of_lt hab) hdisp
    exact hpo.nodup_iff.mp hdnd
  have hview : ((serverColView server B colId).map Task.order).Pairwise (· < ·) := by
    have := hview_le.and hview_ne
    exact this.imp (fun hab => lt_of_le_of_ne hab.1 hab.2)
  -- unique sortedness forces the key sequences to coincide
  have hkeys : (displayCol client colId).map keyOf = (serverColView server B colId).map keyOf := by
    refine perm_pairwise_strict_eq (fun k : String × String × Int => k.2.2) hkeysperm ?_ ?_
    · rw [List.pairwise_map]
      rw [List.pairwise_map] at hdisp
      exact hdisp
    · rw [List.pairwise_map]
      rw [List.pairwise_map] at hview
      exact hview
  have := congrArg (List.map (fun k : String × String × Int => k.1)) hkeys
  rwa [keys_map_fst, keys_map_fst] at this

theorem sameColumnUpdated_inv {tasks : List Task} {col aId oId : String}
    {updated : List Task}
    (h : sameColumnUpdated tasks col aId oId = some updated) :
    ∃ i j, i < (sortByOrder (tasks.filter (fun t => t.status == col))).length ∧
      j < (sortByOrder (tasks.filter (fun t => t.status == col))).length ∧
      updated = assignOrders
        (arrayMove (sortByOrder (tasks.filter (fun t => t.status == col))) i j) := by
  simp only [sameColumnUpdated] at h
  split at h
  next i j hfi hfj =>
    split at h
    next hij =>
      exact ⟨i, j, (findIdx?_bound hfi).1, (findIdx?_bound hfj).1,
        (Option.some.inj h).symm⟩
    next => exact absurd h (by simp)
  next => exact absurd h (by simp)

theorem synced_reorder_core {B col : String} {client server am : List Task}
    (hperm : (client.map keyOf).Perm
      ((server.filter (fun t => t.boardId == B)).map keyOf))
    (hndsrv : (server.map Task.id).Nodup)
    (hboard : ∀ t ∈ client, t.boardId = B)
    (hsorted : ColSortedOk client)
    (ham : am.Perm (sortByOrder (client.filter (fun t => t.status == col)))) :
    Synced B (reorderApply client col (assignOrders am))
      (updateOrders server
        ((assignOrders am).map (fun t => OrderUpdate.mk t.id t.order))) := by
  have hndcli : (client.map Task.id).Nodup :=
    synced_client_ids_nodup ⟨hperm, hndsrv, hboard, hsorted⟩
  have hamf : am.Perm (client.filter (fun t => t.status == col)) :=
    ham.trans (List.perm_insertionSort leOrder _)
  have hnd_filter : ((client.filter (fun t => t.status == col)).map Task.id).Nodup :=
    ((List.filter_sublist client).map Task.id).nodup hndcli
  have hnd_am : (am.map Task.id).Nodup := (hamf.map Task.id).nodup_iff.mpr hnd_filter
  have hpairs_ids : (((assignOrders am).map
      (fun t => OrderUpdate.mk t.id t.order)).map OrderUpdate.id) = am.map Task.id := by
    rw [List.map_map]
    exact assignOrders_map_id am
  have hnd_pairs : (((assignOrders am).map
      (fun t => OrderUpdate.mk t.id t.order)).map OrderUpdate.id).Nodup :=
    hpairs_ids ▸ hnd_am
  have hmem_am : ∀ u ∈ am, u ∈ client ∧ u.status = col := by
    intro u hu
    have hu' := hamf.mem_iff.mp hu
    exact ⟨List.mem_of_mem_filter hu', by simpa using List.of_mem_filter hu'⟩
  have hstatus : ∀ t ∈ assignOrders am, t.status = col := by
    intro t ht
    obtain ⟨u, hu, -, hs, -⟩ := mem_assignOrders ht
    rw [hs]
    exact (hmem_am u hu).2
  -- the server update is the pointwise override
  have hserver_eq : updateOrders server
      ((assignOrders am).map (fun t => OrderUpdate.mk t.id t.order)) =
      server.map (fun t =>
        match ((assignOrders am).map (fun t => OrderUpdate.mk t.id t.order)).find?
            (fun u => u.id == t.id) with
        | some u => { t with order := u.order }
        | none => t) :=
    updateOrders_eq_map server _ hndsrv hnd_pairs
  have hov_board : ∀ t : Task,
      (match ((assignOrders am).map (fun s : Task => OrderUpdate.mk s.id s.order)).find?
          (fun u : OrderUpdate => u.id == t.id) with
        | some u => ({ t with order := u.order } : Task)
        | none => t).boardId = t.boardId := by
    intro t
    cases hf : ((assignOrders am).map (fun s : Task => OrderUpdate.mk s.id s.order)).find?
        (fun u : OrderUpdate => u.id == t.id) with
    | none => rfl
    | some u => rfl
  have hfilter_srv : (server.map (fun t : Task =>
      match ((assignOrders am).map (fun s : Task => OrderUpdate.mk s.id s.order)).find?
          (fun u => u.id == t.id) with
      | some u => { t with order := u.order }
      | none => t)).filter (fun t => t.boardId == B) =
      (server.filter (fun t => t.boardId == B)).map (fun t : Task =>
        match ((assignOrders am).map (fun s : Task => OrderUpdate.mk s.id s.order)).find?
            (fun u => u.id == t.id) with
        | some u => { t with order := u.order }
        | none => t) := by
    rw [List.filter_map]
    refine congrArg _ (List.filter_congr ?_)
    intro t _
    have hb := hov_board t
    simp only [Function.comp]
    rw [hb]
  have hkeys_srv : ((updateOrders server
      ((assignOrders am).map (fun t => OrderUpdate.mk t.id t.order))).filter
        (fun t => t.boardId == B)).map keyOf =
      ((server.filter (fun t => t.boardId == B)).map keyOf).map
        (overrideKey ((assignOrders am).map (fun t => OrderUpdate.mk t.id t.order))) := by
    rw [hserver_eq, hfilter_srv, List.map_map, List.map_map]
    exact List.map_congr_left (fun t _ => keyOf_override _ t)
  -- tasks outside the column are untouched by the override
  have hA : ∀ t ∈ client.filter (fun t => !(t.status == col)),
      overrideKey ((assignOrders am).map (fun t => OrderUpdate.mk t.id t.order))
        (keyOf t) = keyOf t := by
    intro t ht
    have hnone : ((assignOrders am).map (fun t => OrderUpdate.mk t.id t.order)).find?
        (fun u => u.id == t.id) = none := by
      cases hf : ((assignOrders am).map (fun t => OrderUpdate.mk t.id t.order)).find?
          (fun u => u.id == t.id) with
      | none => rfl
      | some u =>
        exfalso
        have humem := List.mem_of_find?_eq_some hf
        have huid : u.id = t.id := by simpa using List.find?_some hf
        obtain ⟨t', ht', hueq⟩ := List.mem_map.mp humem
        have ht'id : t'.id = t.id := by rw [← hueq] at huid; exact huid
        obtain ⟨w, hw, hwid, -, -⟩ := mem_assignOrders ht'
        have hw' := hmem_am w hw
        have hwt : w.id = t.id := by rw [← hwid]; exact ht'id
        have heq : w = t := List.inj_on_of_nodup_map hndcli hw'.1
          (List.mem_of_mem_filter ht) hwt
        have hneq := List.of_mem_filter ht
        rw [← heq] at hneq
        simp [hw'.2] at hneq
    simp [overrideKey, keyOf, hnone]
  have hAeq : ((client.filter (fun t => !(t.status == col))).map keyOf).map
      (overrideKey ((assignOrders am).map (fun t => OrderUpdate.mk t.id t.order))) =
      (client.filter (fun t => !(t.status == col))).map keyOf := by
    rw [List.map_map]
    exact List.map_congr_left (fun t ht => hA t ht)
  have hU : (assignOrders am).map keyOf = (am.map keyOf).map
      (overrideKey ((assignOrders am).map (fun t => OrderUpdate.mk t.id t.order))) :=
    assignOrders_keys_override am hnd_am
  -- assemble the key permutation
  have hperm1 : ((reorderApply client col (assignOrders am)).map keyOf).Perm
      ((client.map keyOf).map
        (overrideKey ((assignOrders am).map (fun t => OrderUpdate.mk t.id t.order)))) := by
    rw [reorderApply, List.map_append, hU, ← hAeq, ← List.map_append]
    refine List.Perm.map _ ?_
    have hstep1 : ((client.filter (fun t => !(t.status == col))).map keyOf ++
        am.map keyOf).Perm
        ((client.filter (fun t => !(t.status == col))).map keyOf ++
          (client.filter (fun t => t.status == col)).map keyOf) :=
      List.Perm.append_left _ (hamf.map keyOf)
    refine hstep1.trans ?_
    rw [← List.map_append]
    refine List.Perm.map _ ?_
    exact (List.perm_append_comm).trans
      (List.filter_append_perm (fun t => t.status == col) client)
  refine ⟨?_, ?_, ?_, ?_⟩
  · -- keys permutation
    refine hperm1.trans ?_
    refine (hperm.map _).trans ?_
    exact List.Perm.of_eq hkeys_srv.symm
  · -- server ids stay unique
    have hids := updateOrders_map_id server
      ((assignOrders am).map (fun t => OrderUpdate.mk t.id t.order))
    rw [hids]
    exact hndsrv
  · -- board membership of the new client list
    intro t ht
    rcases List.mem_append.mp ht with hl | hr
    · exact hboard t (List.mem_of_mem_filter hl)
    · obtain ⟨u, hu, -, -, hb⟩ := mem_assignOrders hr
      rw [hb]
      exact hboard u (hmem_am u hu).1
  · -- per-column strict sortedness
    intro colId _
    by_cases hcol : colId = col
    · subst hcol
      have hA0 : (client.filter (fun t => !(t.status == colId))).filter
          (fun t => t.status == colId) = [] := by
        refine List.filter_eq_nil_iff.mpr (fun t ht => ?_)
        have := List.of_mem_filter ht
        simpa using this
      have hU1 : (assignOrders am).filter (fun t => t.status == colId) =
          assignOrders am := by
        refine List.filter_eq_self.mpr (fun t ht => ?_)
        simpa using hstatus t ht
      rw [reorderApply, List.filter_append, hA0, hU1, List.nil_append]
      exact assignOrders_orders_pairwise am
    · have hU0 : (assignOrders am).filter (fun t => t.status == colId) = [] := by
        refine List.filter_eq_nil_iff.mpr (fun t ht => ?_)
        have hs := hstatus t ht
        simp only [beq_iff_eq]
        rw [hs]
        exact fun he => hcol he.symm
      have hA1 : (client.filter (fun t => !(t.status == col))).filter
          (fun t => t.status == colId) = client.filter (fun t => t.status == colId) := by
        rw [List.filter_filter]
        refine List.filter_congr (fun t _ => ?_)
        by_cases hq : t.status = colId
        · have hne : ¬ (t.status = col) := by rw [hq]; exact hcol
          simp [hq, hne, hcol]
        · simp [hq]
      rw [reorderApply, List.filter_append, hU0, hA1, List.append_nil]
      exact colSortedOk_all hsorted colId

theorem synced_reorderStep {B : String} (s : SystemState) (a o : String)
    (h : Synced B s.client s.server) :
    Synced B (reorderStep s a o).client (reorderStep s a o).server := by
  unfold reorderStep
  cases hfa : s.client.find? (fun t => t.id == a) with
  | none => exact h
  | some activeTask =>
    cases hfo : s.client.find? (fun t => t.id == o) with
    | none => exact h
    | some overTask =>
      simp only []
      by_cases hcond : (activeTask.status == overTask.status &&
          !(activeTask.id == overTask.id)) = true
      · rw [if_pos hcond]
        cases hup : sameColumnUpdated s.client activeTask.status activeTask.id o with
        | none => exact h
        | some updated =>
          obtain ⟨i, j, hib, hjb, hupd⟩ := sameColumnUpdated_inv hup
          obtain ⟨hperm, hnd, hb, hs⟩ := h
          subst hupd
          exact synced_reorder_core hperm hnd hb hs (arrayMove_perm _ i j hib hjb)
      · rw [if_neg hcond]
        exact h

theorem synced_applyReorders {B : String} (s : SystemState)
    (ops : List (String × String)) (h : Synced B s.client s.server) :
    Synced B (applyReorders s ops).client (applyReorders s ops).server := by
  induction ops generalizing s with
  | nil => exact h
  | cons op rest ih => exact ih (reorderStep s op.1 op.2) (synced_reorderStep s op.1 op.2 h)

/-! ### Claims -/

/-- Concrete task used in witnesses and counterexamples. -/
def demoTask (id status : String) (ord createdAt : Int) : Task :=
  { id := id, title := id, status := status, priority := "medium", color := "col1",
    owner := none, boardId := "b1", checklist := [], order := ord, createdAt := createdAt }

/-- C4 (counterexample): the server's `getTasksByBoard` is NOT sorted by the
`order` field — it sorts by `createdAt` descending.  With task t1 (order 0,
createdAt 1) and t2 (order 5, createdAt 2) on board b1, the returned list is
[t2, t1], whose orders [5, 0] are not ascending. -/
theorem c4_get_tasks_by_board_counterexample :
    ¬ (getTasksByBoard [demoTask "t1" "c" 0 1, demoTask "t2" "c" 5 2] "b1").Sorted leOrder := by
  decide

/-- C4 (amended): `getTasksByBoard` returns exactly the board's tasks, but
sorted by `createdAt` descending (newest first), not by `order`; callers
that need order-sorted tasks (the client's `fetchBoardData`) re-sort. -/
theorem c4_get_tasks_by_board_sorted_created_at (db : List Task) (boardId : String) :
    (getTasksByBoard db boardId).Sorted geCreatedAt ∧
    (getTasksByBoard db boardId).Perm (db.filter (fun t => t.boardId == boardId)) := by
  exact ⟨List.sorted_insertionSort geCreatedAt _,
    List.perm_insertionSort geCreatedAt _⟩

/-- C2: for a cross-column drag the client sets the active task's status to
the target column and its order to (max order in the target column) + 1, or
0 if the target column is empty; every other task (every other position of
the list) is left entirely unchanged. -/
theorem c2_cross_column_move (tasks : List Task) (activeTask : Task)
    (targetColumnId : String) (hdiff : activeTask.status ≠ targetColumnId) :
    (∀ i, i < tasks.length → ∃ t, tasks[i]? = some t ∧
      (crossMoveOptimistic tasks activeTask.id targetColumnId
          (crossNewOrder (tasks.filter (fun u => u.status == targetColumnId))))[i]? =
        some (if t.id = activeTask.id
          then { t with status := targetColumnId,
                        order := crossNewOrder (tasks.filter (fun u => u.status == targetColumnId)) }
          else t)) ∧
    (tasks.filter (fun u => u.status == targetColumnId) = [] →
      crossNewOrder (tasks.filter (fun u => u.status == targetColumnId)) = 0) ∧
    (tasks.filter (fun u => u.status == targetColumnId) ≠ [] →
      (∃ u ∈ tasks.filter (fun u => u.status == targetColumnId),
        crossNewOrder (tasks.filter (fun u => u.status == targetColumnId)) = u.order + 1) ∧
      ∀ u ∈ tasks.filter (fun u => u.status == targetColumnId),
        u.order < crossNewOrder (tasks.filter (fun u => u.status == targetColumnId))) := by
  refine ⟨?_, ?_, ?_⟩
  · intro i hi
    refine ⟨tasks[i], List.getElem?_eq_getElem hi, ?_⟩
    simp [crossMoveOptimistic, List.getElem?_map, List.getElem?_eq_getElem hi]
  · intro he
    simp [crossNewOrder, he]
  · intro hne
    obtain ⟨⟨u, hu, hmax⟩, hub⟩ := maxOrderOf_spec _ hne
    have hlen : 0 < (tasks.filter (fun u => u.status == targetColumnId)).length :=
      List.length_pos.mpr hne
    refine ⟨⟨u, hu, ?_⟩, ?_⟩
    · simp [crossNewOrder, hlen, hmax]
    · intro v hv
      have := hub v hv
      simp only [crossNewOrder, hlen, if_pos]
      omega

/-- C2 witness: board [backlog, done], T (order 0) and U (order 1) in
backlog, done empty; dragging T to done gives T.status = "done",
T.order = 0 and leaves U untouched. -/
theorem c2_cross_column_move_witness :
    ((demoTask "T" "backlog" 0 1).status ≠ "done" ∧
      crossMoveOptimistic [demoTask "T" "backlog" 0 1, demoTask "U" "backlog" 1 2]
          "T" "done" (crossNewOrder
            (([demoTask "T" "backlog" 0 1, demoTask "U" "backlog" 1 2]).filter
              (fun u => u.status == "done"))) =
        [demoTask "T" "done" 0 1, demoTask "U" "backlog" 1 2]) ∧
    (∀ i, i < ([demoTask "T" "backlog" 0 1, demoTask "U" "backlog" 1 2] : List Task).length →
      ∃ t, ([demoTask "T" "backlog" 0 1, demoTask "U" "backlog" 1 2] : List Task)[i]? = some t ∧
      (crossMoveOptimistic [demoTask "T" "backlog" 0 1, demoTask "U" "backlog" 1 2]
          (demoTask "T" "backlog" 0 1).id "done"
          (crossNewOrder (([demoTask "T" "backlog" 0 1, demoTask "U" "backlog" 1 2]).filter
            (fun u => u.status == "done"))))[i]? =
        some (if t.id = (demoTask "T" "backlog" 0 1).id
          then { t with status := "done",
                        order := crossNewOrder
                          (([demoTask "T" "backlog" 0 1, demoTask "U" "backlog" 1 2]).filter
                            (fun u => u.status == "done")) }
          else t)) := by
  refine ⟨⟨by decide, by decide⟩, ?_⟩
  exact (c2_cross_column_move [demoTask "T" "backlog" 0 1, demoTask "U" "backlog" 1 2]
    (demoTask "T" "backlog" 0 1) "done" (by decide)).1

/-- C7: when the cross-column persistence call fails, the rollback restores
the active task's pre-move status and order and leaves every other task
untouched: reverting after the optimistic update is the identity on the
task list (the error itself is caught and logged, never thrown — both
branches of the embedded handler are total). -/
theorem c7_cross_move_revert (tasks : List Task) (activeTask : Task)
    (targetColumnId : String) (newOrder : Int)
    (h : ∀ t ∈ tasks, t.id = activeTask.id →
      t.status = activeTask.status ∧ t.order = activeTask.order) :
    crossMoveRevert (crossMoveOptimistic tasks activeTask.id targetColumnId newOrder)
      activeTask.id activeTask.status activeTask.order = tasks := by
  rw [crossMoveRevert, crossMoveOptimistic, List.map_map]
  refine List.map_congr_left ?_ |>.trans (List.map_id tasks)
  intro t ht
  simp only [Function.comp_apply, beq_iff_eq]
  by_cases he : t.id = activeTask.id
  · obtain ⟨hs, ho⟩ := h t ht he
    simp only [he, if_pos rfl, if_pos rfl]
    cases t
    simp_all
  · simp [he]

/-- C7 witness: rolling back a failed move of T out of backlog restores the
original two-task list. -/
theorem c7_cross_move_revert_witness :
    (∀ t ∈ [demoTask "T" "backlog" 0 1, demoTask "U" "backlog" 1 2],
      t.id = (demoTask "T" "backlog" 0 1).id →
      t.status = (demoTask "T" "backlog" 0 1).status ∧
      t.order = (demoTask "T" "backlog" 0 1).order) ∧
    crossMoveRevert
      (crossMoveOptimistic [demoTask "T" "backlog" 0 1, demoTask "U" "backlog" 1 2]
        (demoTask "T" "backlog" 0 1).id "done" 0)
      (demoTask "T" "backlog" 0 1).id (demoTask "T" "backlog" 0 1).status
      (demoTask "T" "backlog" 0 1).order =
      [demoTask "T" "backlog" 0 1, demoTask "U" "backlog" 1 2] :=
  ⟨by decide, c7_cross_move_revert _ _ "done" 0 (by decide)⟩

/-- C9: saving a task whose checklist is non-empty, fully completed, and
whose status is not "done" makes the client auto-issue a move of that task
into the board's highest-order column. -/
theorem c9_auto_move_to_done (columns : List ColumnData) (result : Task)
    (hcols : columns ≠ []) (hck : result.checklist ≠ [])
    (hall : ∀ item ∈ result.checklist, item.completed = true)
    (hst : result.status ≠ "done") :
    ∃ c ∈ columns, autoMoveTarget columns result = some c.id ∧
      ∀ c' ∈ columns, c'.order ≤ c.order := by
  obtain ⟨c, hdone, hmem, hub⟩ := doneColumnOf_spec columns hcols
  refine ⟨c, hmem, ?_, hub⟩
  have hlen : 0 < result.checklist.length := List.length_pos.mpr hck
  have hganz : result.checklist.all (fun item => item.completed) = true :=
    List.all_eq_true.mpr (fun item hi => hall item hi)
  simp [autoMoveTarget, hlen, hganz, hst, hdone]

/-- C9 witness: a task in "todo" with checklist [done, done] on a
two-column board auto-moves into the higher-order column "done". -/
theorem c9_auto_move_to_done_witness :
    (([⟨"todo", "Todo", "#fff", 0⟩, ⟨"done", "Done", "#fff", 1⟩] : List ColumnData) ≠ [] ∧
      ({ demoTask "T" "todo" 0 1 with
          checklist := [⟨"a", true⟩, ⟨"b", true⟩] } : Task).checklist ≠ [] ∧
      ({ demoTask "T" "todo" 0 1 with
          checklist := [⟨"a", true⟩, ⟨"b", true⟩] } : Task).status ≠ "done") ∧
    ∃ c ∈ ([⟨"todo", "Todo", "#fff", 0⟩, ⟨"done", "Done", "#fff", 1⟩] : List ColumnData),
      autoMoveTarget [⟨"todo", "Todo", "#fff", 0⟩, ⟨"done", "Done", "#fff", 1⟩]
          { demoTask "T" "todo" 0 1 with checklist := [⟨"a", true⟩, ⟨"b", true⟩] } = some c.id ∧
      ∀ c' ∈ ([⟨"todo", "Todo", "#fff", 0⟩, ⟨"done", "Done", "#fff", 1⟩] : List ColumnData),
        c'.order ≤ c.order :=
  ⟨⟨by decide, by decide, by decide⟩,
    c9_auto_move_to_done _ _ (by decide) (by decide) (by decide) (by decide)⟩

/-- C5: `moveTask(taskId, newStatus, newOrder)` updates exactly the matching
task's status and order (all other positions of the collection are returned
unchanged) and returns the updated task with its owner and color references
populated; when no task has `taskId` it fails with `ApiError(404, "Task not
found")` and the collection is untouched. -/
theorem c5_move_task_spec (users : List User) (colors : List ColorDoc)
    (db : List Task) (taskId newStatus : String) (newOrder : Int)
    (hnd : (db.map Task.id).Nodup) :
    (∀ t ∈ db, t.id = taskId →
      moveTask users colors db taskId newStatus (some newOrder) =
        .ok (updateFirst db taskId (applyMoveUpdate newStatus (some newOrder)),
             populateTask users colors { t with status := newStatus, order := newOrder }) ∧
      (∀ i, i < db.length → ∃ u, db[i]? = some u ∧
        (updateFirst db taskId (applyMoveUpdate newStatus (some newOrder)))[i]? =
          some (if u.id = taskId
            then { u with status := newStatus, order := newOrder } else u))) ∧
    ((∀ t ∈ db, t.id ≠ taskId) →
      moveTask users colors db taskId newStatus (some newOrder) =
        .error ⟨404, "Task not found"⟩ ∧
      updateFirst db taskId (applyMoveUpdate newStatus (some newOrder)) = db) := by
  constructor
  · intro t ht hid
    have hfind := find?_eq_of_mem_nodup hnd ht hid
    constructor
    · rw [moveTask, hfind]
      rfl
    · intro i hi
      refine ⟨db[i], List.getElem?_eq_getElem hi, ?_⟩
      rw [updateFirst_eq_map db taskId _ hnd]
      simp [List.getElem?_map, List.getElem?_eq_getElem hi, applyMoveUpdate]
  · intro habs
    have hfind : db.find? (fun u => u.id == taskId) = none :=
      List.find?_eq_none.mpr (fun u hu => by simpa using habs u hu)
    exact ⟨by rw [moveTask, hfind], updateFirst_of_not_mem db taskId _ habs⟩

/-- C5 witness: moving the existing task t1 to status "done" with order 7
succeeds, rewrites only t1, and returns the populated updated task; the
hypotheses are discharged on a concrete two-task collection. -/
theorem c5_move_task_spec_witness :
    (([demoTask "t1" "c" 0 1, demoTask "t2" "c" 1 2].map Task.id).Nodup) ∧
    moveTask [] [] [demoTask "t1" "c" 0 1, demoTask "t2" "c" 1 2] "t1" "done" (some 7) =
      .ok ([{ demoTask "t1" "c" 0 1 with status := "done", order := 7 },
            demoTask "t2" "c" 1 2],
           ⟨{ demoTask "t1" "c" 0 1 with status := "done", order := 7 }, none, none⟩) := by
  refine ⟨by decide, ?_⟩
  have h := ((c5_move_task_spec [] [] [demoTask "t1" "c" 0 1, demoTask "t2" "c" 1 2]
    "t1" "done" 7 (by decide)).1 (demoTask "t1" "c" 0 1) (by decide) rfl).1
  rw [h]
  exact congrArg Except.ok (by decide)

/-- C6: `updateOrders` is a pointwise bulk write — each listed id that
exists in the collection gets its order set to the paired value, ids with
no matching document are silently skipped (a no-match single update is the
identity), ids and all other fields are preserved, and no check of
contiguity or uniqueness of the resulting orders is performed: the
operation is total and equals the pointwise override for every updates
list. -/
theorem c6_update_orders_spec (db : List Task) (updates : List OrderUpdate)
    (hdb : (db.map Task.id).Nodup) (hup : (updates.map OrderUpdate.id).Nodup) :
    updateOrders db updates =
      db.map (fun t => match updates.find? (fun u => u.id == t.id) with
        | some u => { t with order := u.order }
        | none => t) ∧
    (updateOrders db updates).map Task.id = db.map Task.id ∧
    (∀ u : OrderUpdate, (∀ t ∈ db, t.id ≠ u.id) → applyOrderUpdate db u = db) := by
  exact ⟨updateOrders_eq_map db updates hdb hup, updateOrders_map_id db updates,
    fun u habs => updateFirst_of_not_mem db u.id _ habs⟩

/-- C6 witness: the claim's scenario — an updates list naming the absent id
"ghost" still completes, updates the existing t2 to order 5, and leaves t1
alone; the skipped ghost update is the identity on the collection. -/
theorem c6_update_orders_spec_witness :
    (([demoTask "t1" "c" 0 1, demoTask "t2" "c" 1 2].map Task.id).Nodup ∧
      (([⟨"ghost", 9⟩, ⟨"t2", 5⟩] : List OrderUpdate).map OrderUpdate.id).Nodup) ∧
    updateOrders [demoTask "t1" "c" 0 1, demoTask "t2" "c" 1 2]
        [⟨"ghost", 9⟩, ⟨"t2", 5⟩] =
      [demoTask "t1" "c" 0 1, { demoTask "t2" "c" 1 2 with order := 5 }] := by
  refine ⟨⟨by decide, by decide⟩, ?_⟩
  have h := (c6_update_orders_spec [demoTask "t1" "c" 0 1, demoTask "t2" "c" 1 2]
    [⟨"ghost", 9⟩, ⟨"t2", 5⟩] (by decide) (by decide)).1
  rw [h]
  decide

/-- C10 (implicit): the server's `moveTask` performs no validation of the
new status against the board's columns — the embedded operation does not
even consult a column collection, and it succeeds for an existing task id
and EVERY status string, persisting it verbatim; the order is likewise
taken from the caller as supplied, and an omitted order (`none`, the
`handleTaskMove` call path, where Mongoose strips the undefined field)
leaves the stored order unchanged. -/
theorem c10_move_task_no_status_validation (users : List User) (colors : List ColorDoc)
    (db : List Task) (taskId : String) (hnd : (db.map Task.id).Nodup)
    (t : Task) (ht : t ∈ db) (hid : t.id = taskId) :
    ∀ (newStatus : String) (newOrder : Option Int),
      moveTask users colors db taskId newStatus newOrder =
        .ok (updateFirst db taskId (applyMoveUpdate newStatus newOrder),
             populateTask users colors
               { t with status := newStatus, order := newOrder.getD t.order }) ∧
      (∀ i, i < db.length → ∃ u, db[i]? = some u ∧
        (updateFirst db taskId (applyMoveUpdate newStatus newOrder))[i]? =
          some (if u.id = taskId
            then { u with status := newStatus, order := newOrder.getD u.order } else u)) := by
  intro newStatus newOrder
  have hfind := find?_eq_of_mem_nodup hnd ht hid
  constructor
  · rw [moveTask, hfind]
    rfl
  · intro i hi
    refine ⟨db[i], List.getElem?_eq_getElem hi, ?_⟩
    rw [updateFirst_eq_map db taskId _ hnd]
    simp [List.getElem?_map, List.getElem?_eq_getElem hi, applyMoveUpdate]

/-- C10 witness: moving t2 to the status "not-a-column" (no board has such
a column id) with no order supplied succeeds, persists the status verbatim
and keeps t2's order of 1. -/
theorem c10_move_task_no_status_validation_witness :
    (([demoTask "t1" "c" 0 1, demoTask "t2" "c" 1 2].map Task.id).Nodup) ∧
    moveTask [] [] [demoTask "t1" "c" 0 1, demoTask "t2" "c" 1 2] "t2"
        "not-a-column" none =
      .ok ([demoTask "t1" "c" 0 1,
            { demoTask "t2" "c" 1 2 with status := "not-a-column" }],
           ⟨{ demoTask "t2" "c" 1 2 with status := "not-a-column" }, none, none⟩) := by
  refine ⟨by decide, ?_⟩
  have h := (c10_move_task_no_status_validation [] []
    [demoTask "t1" "c" 0 1, demoTask "t2" "c" 1 2] "t2" (by decide)
    (demoTask "t2" "c" 1 2) (by decide) rfl "not-a-column" none).1
  rw [h]
  exact congrArg Except.ok (by decide)

/-- C8: the recovery path of a failed bulk reorder replaces the whole local
task list with `clientFetchTasks` (the embedded `TaskService.getByBoard`
followed by the client's order sort) — a function of the server state
alone, so the recovered client state is the server's authoritative task set
for the board (a permutation of its board-filtered collection), displayed
sorted ascending by order. -/
theorem c8_reorder_failure_refetch (server : List Task) (boardId : String) :
    (clientFetchTasks server boardId).Perm
      (server.filter (fun t => t.boardId == boardId)) ∧
    (clientFetchTasks server boardId).Sorted leOrder := by
  constructor
  · exact (List.perm_insertionSort leOrder _).trans
      (List.perm_insertionSort geCreatedAt _)
  · exact List.sorted_insertionSort leOrder _

/-- C1: a same-column drag onto a different task takes the column's tasks
sorted by order ascending, removes the active task from its old index `i`
and re-inserts it at the target task's index `j` (stable insertion via
erase-then-insert, not a swap), then assigns `order := array index` to
every task of the column, producing 0-based contiguous orders. -/
theorem c1_same_column_reorder (tasks : List Task) (columnId activeId overId : String)
    (i j : Nat) (x : Task)
    (hi : (sortByOrder (tasks.filter (fun t => t.status == columnId))).findIdx?
        (fun t => t.id == activeId) = some i)
    (hj : (sortByOrder (tasks.filter (fun t => t.status == columnId))).findIdx?
        (fun t => t.id == overId) = some j)
    (hx : (sortByOrder (tasks.filter (fun t => t.status == columnId)))[i]? = some x)
    (hne : activeId ≠ overId) :
    sameColumnUpdated tasks columnId activeId overId =
      some (assignOrders
        (((sortByOrder (tasks.filter (fun t => t.status == columnId))).eraseIdx i).insertIdx j x)) ∧
    (assignOrders
        (((sortByOrder (tasks.filter (fun t => t.status == columnId))).eraseIdx i).insertIdx j x)).map
      Task.order =
      (List.range
        (((sortByOrder (tasks.filter (fun t => t.status == columnId))).eraseIdx i).insertIdx j x).length).map
        Int.ofNat := by
  obtain ⟨hib, xi, hxi, hpi⟩ := findIdx?_bound hi
  obtain ⟨hjb, xj, hxj, hpj⟩ := findIdx?_bound hj
  have hxx : x = xi := by
    rw [hxi] at hx
    exact (Option.some.inj hx).symm
  subst hxx
  have hij : i ≠ j := by
    intro he
    subst he
    rw [hxi] at hxj
    have hxij : x = xj := Option.some.inj hxj
    apply hne
    have h1 : x.id = activeId := by simpa using hpi
    have h2 : xj.id = overId := by simpa using hpj
    rw [← h1, hxij, h2]
  constructor
  · rw [sameColumnUpdated]
    simp only [hi, hj, if_pos hij]
    have hx' : (sortByOrder (tasks.filter (fun t => t.status == columnId)))[i] = x := by
      have h1 : (sortByOrder (tasks.filter (fun t => t.status == columnId)))[i]? =
          some ((sortByOrder (tasks.filter (fun t => t.status == columnId)))[i]) :=
        List.getElem?_eq_getElem hib
      rw [h1] at hxi
      exact Option.some.inj hxi
    rw [arrayMove_eq_erase_insert _ i j hib hjb, hx']
  · exact assignOrders_map_order _

/-- C1 witness: the claim's scenario — column [A(order 0), B(order 1),
C(order 2)], dragging A onto C yields the updated column [B, C, A] with
recomputed orders B = 0, C = 1, A = 2. -/
theorem c1_same_column_reorder_witness :
    ((sortByOrder (([demoTask "A" "c1" 0 1, demoTask "B" "c1" 1 2,
        demoTask "C" "c1" 2 3]).filter (fun t => t.status == "c1"))).findIdx?
        (fun t => t.id == "A") = some 0 ∧
      (sortByOrder (([demoTask "A" "c1" 0 1, demoTask "B" "c1" 1 2,
        demoTask "C" "c1" 2 3]).filter (fun t => t.status == "c1"))).findIdx?
        (fun t => t.id == "C") = some 2 ∧
      ("A" : String) ≠ "C") ∧
    sameColumnUpdated [demoTask "A" "c1" 0 1, demoTask "B" "c1" 1 2,
        demoTask "C" "c1" 2 3] "c1" "A" "C" =
      some [{ demoTask "B" "c1" 1 2 with order := 0 },
            { demoTask "C" "c1" 2 3 with order := 1 },
            { demoTask "A" "c1" 0 1 with order := 2 }] := by
  refine ⟨⟨by decide, by decide, by decide⟩, ?_⟩
  have h := (c1_same_column_reorder [demoTask "A" "c1" 0 1, demoTask "B" "c1" 1 2,
    demoTask "C" "c1" 2 3] "c1" "A" "C" 0 2 (demoTask "A" "c1" 0 1)
    (by decide) (by decide) (by decide) (by decide)).1
  rw [h]
  exact congrArg some (by decide)

/-- Concrete four-task board used in the C3 scenarios: A, B in column c1
(orders 0, 1), C, D in column c2 (orders 0, 1), with distinct creation
times. -/
def c3Server : List Task :=
  [demoTask "A" "c1" 0 4, demoTask "B" "c1" 1 2,
   demoTask "C" "c2" 0 3, demoTask "D" "c2" 1 1]

/-- The two columns of the C3 board. -/
def c3Columns : List ColumnData :=
  [⟨"c1", "Column 1", "#aaaaaa", 0⟩, ⟨"c2", "Column 2", "#bbbbbb", 1⟩]

/-- C3 (counterexample): the round trip fails once a cross-column MOVE is
among the operations.  Starting from a freshly fetched, fully synchronised
client, the successful move of task A onto column c2 leaves A at its old
array position in the client's list, so the client displays column c2 as
[A, C, D], while fetching the board from the server and ordering c2's tasks
by order ascending yields [C, D, A] (A got order 2 = max + 1).  The client
display is the raw `tasks.filter(status === column.id)` of the optimistic
list, which a cross-column move does not re-sort. -/
theorem c3_round_trip_counterexample :
    Synced "b1" (clientFetchTasks c3Server "b1") c3Server ∧
    (displayCol (applyDrags c3Columns ⟨clientFetchTasks c3Server "b1", c3Server⟩
        [("A", "c2")]).client "c2").map Task.id ≠
      (serverColView (applyDrags c3Columns ⟨clientFetchTasks c3Server "b1", c3Server⟩
        [("A", "c2")]).server "b1" "c2").map Task.id := by
  constructor
  · unfold Synced ColSortedOk
    decide
  · decide

/-- C3 (amended): for sequences of successful SAME-COLUMN reorder
operations (the spec's own formulation; cross-column moves excluded), the
round trip holds: from any synchronised client/server pair, after any
sequence of reorder drags, for every column the sequence of task ids the
client displays equals the board's tasks fetched from the server,
restricted to the column and ordered by order ascending. -/
theorem c3_round_trip_reorder_only (B : String) (client server : List Task)
    (ops : List (String × String)) (colId : String)
    (h : Synced B client server) :
    (displayCol (applyReorders ⟨client, server⟩ ops).client colId).map Task.id =
      (serverColView (applyReorders ⟨client, server⟩ ops).server B colId).map Task.id :=
  synced_display (synced_applyReorders ⟨client, server⟩ ops h) colId

/-- C3 witness: on the concrete synchronised board, after the same-column
reorder dragging A onto B in column c1, the displayed c1 sequence equals
the order-sorted server fetch of c1. -/
theorem c3_round_trip_reorder_only_witness :
    Synced "b1" (clientFetchTasks c3Server "b1") c3Server ∧
    (displayCol (applyReorders ⟨clientFetchTasks c3Server "b1", c3Server⟩
        [("A", "B")]).client "c1").map Task.id =
      (serverColView (applyReorders ⟨clientFetchTasks c3Server "b1", c3Server⟩
        [("A", "B")]).server "b1" "c1").map Task.id :=
  ⟨by unfold Synced ColSortedOk; decide,
   c3_round_trip_reorder_only "b1" (clientFetchTasks c3Server "b1") c3Server
     [("A", "B")] "c1" (by unfold Synced ColSortedOk; decide)⟩

end BreezyBoard
